import Mathlib

/-!
# Verification of the MCSCA secure-deletion and cleanup subsystem

Shallow embedding of `SCA/core/secure_delete.py` (multi-pass overwrite,
rename-scramble, single-file and directory shred orchestration) and of
`SCA/tools/wipe_manager.py` / `SCA/tools/wipe_core.py` (CleanupManager:
run-once wipe, secret-buffer scrubbing, clipboard clearing).

Modelling conventions:
* machine bytes are `Nat` values (the code only ever stores `p % 256` or
  bytes from `os.urandom`, so no overflow arithmetic is needed);
* filesystem paths are lists of path components relative to the
  filesystem anchor (paths are modelled absolute, as produced by
  `Path(...).absolute()`);
* the cryptographically secure random source (`os.urandom`,
  `secrets.token_hex`) is an oracle passed in as a function argument;
* Python exceptions are values carrying a `catchable` flag: `True` for
  classes deriving from `Exception` (which `except Exception` catches),
  `False` for `BaseException`-only classes such as `KeyboardInterrupt`
  and `SystemExit` (which it does not);
* fallible code returns `Except`/`Option`; side effects are recorded as
  explicit traces of events/actions.
-/

namespace MCSCA

/-! ## Overwrite Engine (`secure_delete._overwrite`), data-level model

`_overwrite(file, passes, bufsize, progress)` reads the file size once,
then for `p` in `1..=passes` seeks to 0 and writes the full length in
chunks of `min(bufsize, size - written)` bytes; a non-final pass writes
the constant byte `p % 256`, the final pass writes `os.urandom(chunk)`
(a fresh draw per chunk); after the writes of each pass it flushes,
fsyncs, and then invokes `progress(p, passes)`.

The model records the observable event sequence.  The random source is
an oracle `rndB : pass → chunk-index → position-in-chunk → byte`; a
chunk of the final pass reads only positions of its own chunk index, so
distinct chunks draw from disjoint parts of the oracle ("never reuse the
same random chunk across chunks").  The Python inner loop runs while
`written < size`; since every iteration writes `min(bufsize, rem) ≥ 1`
bytes when `bufsize ≥ 1`, `size` iterations always suffice, and the
model uses `size` as structural fuel. -/

/-- Observable events of one `_overwrite` call:  a buffer write, a
flush, an fsync, or a `progress(p, total)` callback invocation. -/
inductive Ev where
  | write (data : List Nat)
  | flush
  | fsync
  | progCall (p : Nat) (total : Nat)
deriving DecidableEq

/-- Data written for one chunk: `os.urandom(c)` on the final pass
(modelled by reading the oracle at this chunk's index), else the
constant byte `p % 256` repeated. Mirrors
`os.urandom(chunk) if p == passes else pattern_byte * chunk`. -/
def chunkData (rndB : Nat → Nat → Nat → Nat) (p passes i c : Nat) : List Nat :=
  if p = passes then (List.range c).map (rndB p i) else List.replicate c (p % 256)

/-- Chunk sizes produced by the inner `while written < size` loop:
`chunk = min(bufsize, size - written)`. `fuel` bounds the iteration
count (instantiated with the remaining byte count). -/
def chunkSizes (bufsize : Nat) : Nat → Nat → List Nat
  | 0, _ => []
  | fuel + 1, rem =>
    if rem = 0 then []
    else min bufsize rem :: chunkSizes bufsize fuel (rem - min bufsize rem)

/-- Write events of one pass's inner loop.  `i` is the index of the next
chunk, `rem` the bytes still to write. -/
def chunkEvs (rndB : Nat → Nat → Nat → Nat) (p passes bufsize : Nat) :
    Nat → Nat → Nat → List Ev
  | 0, _, _ => []
  | fuel + 1, i, rem =>
    if rem = 0 then []
    else
      Ev.write (chunkData rndB p passes i (min bufsize rem)) ::
        chunkEvs rndB p passes bufsize fuel (i + 1) (rem - min bufsize rem)

/-- The event sequence of pass `p`: all chunk writes, then flush, fsync,
and the `progress(p, passes)` call (the callback is assumed supplied). -/
def passTrace (rndB : Nat → Nat → Nat → Nat) (p passes size bufsize : Nat) : List Ev :=
  chunkEvs rndB p passes bufsize size 0 size ++
    [Ev.flush, Ev.fsync, Ev.progCall p passes]

/-- The full event sequence of `_overwrite`: passes `1..=passes` run
strictly in order (`for p in range(1, passes + 1)`). -/
def overwriteTrace (rndB : Nat → Nat → Nat → Nat) (size passes bufsize : Nat) : List Ev :=
  (List.range passes).flatMap fun k => passTrace rndB (k + 1) passes size bufsize

/-- Concatenation of all bytes written in an event sequence. -/
def writtenBytes : List Ev → List Nat
  | [] => []
  | Ev.write d :: r => d ++ writtenBytes r
  | _ :: r => writtenBytes r

/-- The `(p, total)` arguments of the progress-callback invocations in
an event sequence, in order. -/
def progCalls : List Ev → List (Nat × Nat)
  | [] => []
  | Ev.progCall p t :: r => (p, t) :: progCalls r
  | _ :: r => progCalls r

/-- Constant `secure_delete._BUFFER = 1 << 16`. -/
def BUFFER : Nat := 65536

/-! ### Lemmas about the overwrite model -/

theorem chunkSizes_sum (bufsize : Nat) (hb : 0 < bufsize) :
    ∀ fuel rem, rem ≤ fuel → (chunkSizes bufsize fuel rem).sum = rem := by
  intro fuel
  induction fuel with
  | zero =>
    intro rem h
    have : rem = 0 := Nat.le_zero.mp h
    simp [chunkSizes, this]
  | succ n ih =>
    intro rem h
    by_cases h0 : rem = 0
    · simp [chunkSizes, h0]
    · have hc1 : 1 ≤ min bufsize rem :=
        le_min hb (Nat.one_le_iff_ne_zero.mpr h0)
      have hcr : min bufsize rem ≤ rem := min_le_right _ _
      simp only [chunkSizes, if_neg h0, List.sum_cons]
      rw [ih (rem - min bufsize rem) (by omega)]
      omega

theorem chunkSizes_mem (bufsize : Nat) (hb : 0 < bufsize) :
    ∀ fuel rem c, c ∈ chunkSizes bufsize fuel rem → 0 < c ∧ c ≤ bufsize := by
  intro fuel
  induction fuel with
  | zero => intro rem c hc; simp [chunkSizes] at hc
  | succ n ih =>
    intro rem c hc
    by_cases h0 : rem = 0
    · simp [chunkSizes, h0] at hc
    · simp only [chunkSizes, if_neg h0, List.mem_cons] at hc
      rcases hc with rfl | hc
      · exact ⟨le_min hb (Nat.one_le_iff_ne_zero.mpr h0), min_le_left _ _⟩
      · exact ih _ _ hc

theorem chunkEvs_eq_enumFrom (rndB : Nat → Nat → Nat → Nat) (p passes bufsize : Nat) :
    ∀ fuel i rem, chunkEvs rndB p passes bufsize fuel i rem =
      ((chunkSizes bufsize fuel rem).enumFrom i).map
        (fun jc => Ev.write (chunkData rndB p passes jc.1 jc.2)) := by
  intro fuel
  induction fuel with
  | zero => intro i rem; simp [chunkEvs, chunkSizes]
  | succ n ih =>
    intro i rem
    by_cases h0 : rem = 0
    · simp [chunkEvs, chunkSizes, h0]
    · simp only [chunkEvs, chunkSizes, if_neg h0, List.enumFrom, List.map_cons]
      rw [ih]

theorem writtenBytes_append (a b : List Ev) :
    writtenBytes (a ++ b) = writtenBytes a ++ writtenBytes b := by
  induction a with
  | nil => rfl
  | cons e r ih => cases e <;> simp [writtenBytes, ih]

theorem chunkData_length (rndB : Nat → Nat → Nat → Nat) (p passes i c : Nat) :
    (chunkData rndB p passes i c).length = c := by
  unfold chunkData
  split <;> simp

theorem writtenBytes_chunkEvs_pattern (rndB : Nat → Nat → Nat → Nat)
    (p passes bufsize : Nat) (hb : 0 < bufsize) (hp : p ≠ passes) :
    ∀ fuel i rem, rem ≤ fuel →
      writtenBytes (chunkEvs rndB p passes bufsize fuel i rem) =
        List.replicate rem (p % 256) := by
  intro fuel
  induction fuel with
  | zero =>
    intro i rem h
    have : rem = 0 := Nat.le_zero.mp h
    simp [chunkEvs, writtenBytes, this]
  | succ n ih =>
    intro i rem h
    by_cases h0 : rem = 0
    · simp [chunkEvs, writtenBytes, h0]
    · have hc1 : 1 ≤ min bufsize rem :=
        le_min hb (Nat.one_le_iff_ne_zero.mpr h0)
      have hcr : min bufsize rem ≤ rem := min_le_right _ _
      simp only [chunkEvs, if_neg h0, writtenBytes, chunkData, if_neg hp]
      rw [ih (i + 1) (rem - min bufsize rem) (by omega)]
      rw [← List.replicate_add]
      congr 1
      omega

theorem writtenBytes_chunkEvs_length (rndB : Nat → Nat → Nat → Nat)
    (p passes bufsize : Nat) (hb : 0 < bufsize) :
    ∀ fuel i rem, rem ≤ fuel →
      (writtenBytes (chunkEvs rndB p passes bufsize fuel i rem)).length = rem := by
  intro fuel
  induction fuel with
  | zero =>
    intro i rem h
    have : rem = 0 := Nat.le_zero.mp h
    simp [chunkEvs, writtenBytes, this]
  | succ n ih =>
    intro i rem h
    by_cases h0 : rem = 0
    · simp [chunkEvs, writtenBytes, h0]
    · have hc1 : 1 ≤ min bufsize rem :=
        le_min hb (Nat.one_le_iff_ne_zero.mpr h0)
      have hcr : min bufsize rem ≤ rem := min_le_right _ _
      simp only [chunkEvs, if_neg h0, writtenBytes, List.length_append,
        chunkData_length]
      rw [ih (i + 1) (rem - min bufsize rem) (by omega)]
      omega

theorem progCalls_append (a b : List Ev) :
    progCalls (a ++ b) = progCalls a ++ progCalls b := by
  induction a with
  | nil => rfl
  | cons e r ih => cases e <;> simp [progCalls, ih]

theorem progCalls_chunkEvs (rndB : Nat → Nat → Nat → Nat) (p passes bufsize : Nat) :
    ∀ fuel i rem, progCalls (chunkEvs rndB p passes bufsize fuel i rem) = [] := by
  intro fuel
  induction fuel with
  | zero => intro i rem; simp [chunkEvs, progCalls]
  | succ n ih =>
    intro i rem
    by_cases h0 : rem = 0
    · simp [chunkEvs, progCalls, h0]
    · simp only [chunkEvs, if_neg h0, progCalls]
      exact ih _ _

theorem progCalls_passTrace (rndB : Nat → Nat → Nat → Nat) (p passes size bufsize : Nat) :
    progCalls (passTrace rndB p passes size bufsize) = [(p, passes)] := by
  unfold passTrace
  rw [progCalls_append, progCalls_chunkEvs]
  rfl

theorem progCalls_overwriteTrace (rndB : Nat → Nat → Nat → Nat) (size passes bufsize : Nat) :
    progCalls (overwriteTrace rndB size passes bufsize) =
      (List.range passes).map (fun k => (k + 1, passes)) := by
  unfold overwriteTrace
  generalize List.range passes = l
  induction l with
  | nil => rfl
  | cons k r ih =>
    rw [List.flatMap_cons, progCalls_append, progCalls_passTrace, ih]
    rfl

theorem writtenBytes_passTrace (rndB : Nat → Nat → Nat → Nat) (p passes size bufsize : Nat) :
    writtenBytes (passTrace rndB p passes size bufsize) =
      writtenBytes (chunkEvs rndB p passes bufsize size 0 size) := by
  unfold passTrace
  rw [writtenBytes_append]
  simp [writtenBytes]

/-- C1.  For a regular file of any size and any `passes` in `[1,35]`,
`_overwrite` performs exactly `passes` sequential passes, each streaming
the whole length in chunks of at most `bufsize` bytes (every chunk
non-empty and their sizes summing to the length); every non-final pass
`p` writes the constant byte `p % 256` over the whole length; the final
pass writes fresh random bytes per chunk (chunk `j` reads the random
oracle at chunk index `j` only) totalling the file length; and each pass
ends with flush, fsync, and `progress(p, passes)` — in that order —
before the next pass starts. -/
theorem overwrite_engine_passes_spec (rndB : Nat → Nat → Nat → Nat)
    (size passes bufsize : Nat)
    (h1 : 1 ≤ passes) (h35 : passes ≤ 35) (hb : 0 < bufsize) :
    overwriteTrace rndB size passes bufsize =
        (List.range passes).flatMap
          (fun k => passTrace rndB (k + 1) passes size bufsize) ∧
    (∀ p, passTrace rndB p passes size bufsize =
        ((chunkSizes bufsize size size).enumFrom 0).map
          (fun jc => Ev.write (chunkData rndB p passes jc.1 jc.2)) ++
        [Ev.flush, Ev.fsync, Ev.progCall p passes]) ∧
    (chunkSizes bufsize size size).sum = size ∧
    (∀ c ∈ chunkSizes bufsize size size, 0 < c ∧ c ≤ bufsize) ∧
    (∀ p, 1 ≤ p → p < passes →
      writtenBytes (passTrace rndB p passes size bufsize) =
        List.replicate size (p % 256)) ∧
    (∀ i c, chunkData rndB passes passes i c = (List.range c).map (rndB passes i)) ∧
    (writtenBytes (passTrace rndB passes passes size bufsize)).length = size ∧
    progCalls (overwriteTrace rndB size passes bufsize) =
      (List.range passes).map (fun k => (k + 1, passes)) := by
  refine ⟨rfl, ?_, ?_, ?_, ?_, ?_, ?_, ?_⟩
  · intro p
    unfold passTrace
    rw [chunkEvs_eq_enumFrom]
  · exact chunkSizes_sum bufsize hb size size le_rfl
  · intro c hc
    exact chunkSizes_mem bufsize hb size size c hc
  · intro p hp1 hplt
    rw [writtenBytes_passTrace]
    exact writtenBytes_chunkEvs_pattern rndB p passes bufsize hb
      (Nat.ne_of_lt hplt) size 0 size le_rfl
  · intro i c
    simp [chunkData]
  · rw [writtenBytes_passTrace]
    exact writtenBytes_chunkEvs_length rndB passes passes bufsize hb size 0 size le_rfl
  · exact progCalls_overwriteTrace rndB size passes bufsize

/-- Witness for C1 at `size = 5`, `passes = 3`, `bufsize = 2`, with a
concrete random oracle. -/
theorem overwrite_engine_passes_spec_witness :
    (1 ≤ 3 ∧ 3 ≤ 35 ∧ 0 < 2) ∧
    (overwriteTrace (fun _ _ _ => 7) 5 3 2 =
        (List.range 3).flatMap
          (fun k => passTrace (fun _ _ _ => 7) (k + 1) 3 5 2) ∧
    (∀ p, passTrace (fun _ _ _ => 7) p 3 5 2 =
        ((chunkSizes 2 5 5).enumFrom 0).map
          (fun jc => Ev.write (chunkData (fun _ _ _ => 7) p 3 jc.1 jc.2)) ++
        [Ev.flush, Ev.fsync, Ev.progCall p 3]) ∧
    (chunkSizes 2 5 5).sum = 5 ∧
    (∀ c ∈ chunkSizes 2 5 5, 0 < c ∧ c ≤ 2) ∧
    (∀ p, 1 ≤ p → p < 3 →
      writtenBytes (passTrace (fun _ _ _ => 7) p 3 5 2) =
        List.replicate 5 (p % 256)) ∧
    (∀ i c, chunkData (fun _ _ _ => 7) 3 3 i c =
      (List.range c).map ((fun _ _ _ => 7) 3 i)) ∧
    (writtenBytes (passTrace (fun _ _ _ => 7) 3 3 5 2)).length = 5 ∧
    progCalls (overwriteTrace (fun _ _ _ => 7) 5 3 2) =
      (List.range 3).map (fun k => (k + 1, 3))) :=
  ⟨by decide,
   overwrite_engine_passes_spec (fun _ _ _ => 7) 5 3 2
     (by decide) (by decide) (by decide)⟩

/-! ## Shred Orchestrator (`secure_delete.shred_file` / `shred_directory`),
control-flow model

The public entry points are modelled at the granularity of guard checks,
destructive filesystem actions and exception flow.  A target file is
characterised by the three facts the guards inspect:

* `refPresent` — the result of `path.exists()`.  `Path.exists` follows
  symbolic links, so for a symlink this is whether the *referent*
  exists (a dangling symlink yields `false`);
* `isSymlink` — the result of `path.is_symlink()`;
* `nlink` — `path.stat().st_nlink`.

`passes` is an `Int` (a Python int may be negative).  Progress callbacks
are arbitrary effectful functions: they transform a caller-chosen state
`σ` and may raise; an `Exc` with `catchable = true` models an exception
deriving from `Exception` (caught by the `except Exception` blocks),
`catchable = false` models a `BaseException`-only exception such as
`KeyboardInterrupt` or `SystemExit`.  `ovFail p` injects an
`OSError`-style I/O failure (catchable) into the writes of pass `p`,
`finFail` into the finalize step (`unlink`/`move`); the source has no
failure handling at those points other than the outer
`except Exception`, which these oracles exercise. -/

/-- Guard-relevant facts about a shred target. -/
structure Target where
  refPresent : Bool
  isSymlink : Bool
  nlink : Nat
deriving DecidableEq

/-- Outcome messages (tags for the human-readable strings the code
formats). -/
inductive Msg where
  | notFound
  | symlinkRefused
  | hardlinkRefused
  | invalidPass
  | missingKeepRoot
  | ioFailure
  | shredDeleted
  | shredMoved (dst : List String)
  | notADirectory
  | keepRootInside
  | failedOnFile
  | dirShredded
deriving DecidableEq

/-- A Python exception: `catchable` is true iff its class derives from
`Exception` (so `except Exception` catches it). -/
structure Exc where
  catchable : Bool
  tag : Msg
deriving DecidableEq

/-- Destructive filesystem actions performed by a shred call. -/
inductive Action where
  | rename (newName : String)
  | overwritePass (p : Nat)
  | mkdirs (d : List String)
  | move (dst : List String)
  | unlink
  | rmtree (d : List String)
deriving DecidableEq

/-- Model of `_is_subdir(child, parent)`: `child.relative_to(parent)` succeeds
iff `parent`'s components are a prefix of `child`'s (equal or nested —
pure path-prefix semantics, no link resolution). -/
def isSubdir (child parent : List String) : Bool :=
  parent.isPrefixOf child

/-- Destination path for `keep_bytes=True` in `shred_file`:
`rel = scrambled.name if keep_root == scrambled.parent else
scrambled.relative_to(scrambled.anchor)`, `dst = keep_root / rel`.
`origDirs` is the (anchor-relative) directory of the original path —
the scramble renames within the same directory, so it is also
`scrambled.parent`; `randName` is the post-scramble random filename. -/
def shredDest (origDirs : List String) (randName : String) (kr : List String) :
    List String :=
  if kr = origDirs then kr ++ [randName] else kr ++ (origDirs ++ [randName])

/-- The `for p in range(1, passes + 1)` loop of `_overwrite` at pass
granularity, with the callback's state effect and exceptions threaded.
`p` is the next pass number, the second argument the number of passes
still to run.  Within a pass the writes/flush/fsync happen first (an
injected I/O failure `ovFail p` aborts before the pass completes), then
the callback runs; a callback exception aborts after the pass's action.
Returns the final callback state, the completed pass actions, and the
pending exception, if any. -/
def ovLoop {σ : Type} (cb : Nat → Int → σ → σ × Option Exc)
    (ovFail : Nat → Bool) (total : Int) :
    Nat → Nat → σ → σ × List Action × Option Exc
  | _, 0, s => (s, [], none)
  | p, n + 1, s =>
    if ovFail p then (s, [], some ⟨true, Msg.ioFailure⟩)
    else
      match (cb p total s).2 with
      | some e => ((cb p total s).1, [Action.overwritePass p], some e)
      | none =>
        ((ovLoop cb ovFail total (p + 1) n (cb p total s).1).1,
         Action.overwritePass p ::
           (ovLoop cb ovFail total (p + 1) n (cb p total s).1).2.1,
         (ovLoop cb ovFail total (p + 1) n (cb p total s).1).2.2)

/-- Model of `shred_file(path, passes=, keep_bytes=, keep_root=, progress=)`.

Guard order as in the source: existence, symlink, hard-link count, pass
range; then rename-scramble, overwrite, and finalize (unlink, or
mkdir-parents + move to `shredDest` when `keep_bytes`; the missing
`keep_root` check happens only *after* the overwrite, as in the code).
The surrounding `try/except Exception` converts every catchable
exception into an `(False, detail)` return — modelled by producing
`.ok (false, tag)` directly at each raise site — while a non-catchable
exception (only a callback can produce one) escapes as `.error`.
Returns (callback state, public outcome, destructive actions). -/
def shred_file {σ : Type} (t : Target) (origDirs : List String)
    (origName : String) (randName : String) (passes : Int)
    (keepBytes : Bool) (keepRoot : Option (List String))
    (cb : Nat → Int → σ → σ × Option Exc) (ovFail : Nat → Bool)
    (finFail : Bool) (s : σ) :
    σ × Except Exc (Bool × Msg) × List Action :=
  if t.refPresent = false then (s, .ok (false, Msg.notFound), [])
  else if t.isSymlink then (s, .ok (false, Msg.symlinkRefused), [])
  else if t.nlink > 1 then (s, .ok (false, Msg.hardlinkRefused), [])
  else if passes < 1 ∨ passes > 35 then (s, .ok (false, Msg.invalidPass), [])
  else
    let pr := ovLoop cb ovFail passes 1 passes.toNat s
    let acts := Action.rename randName :: pr.2.1
    match pr.2.2 with
    | some e =>
      if e.catchable then (pr.1, .ok (false, e.tag), acts)
      else (pr.1, .error e, acts)
    | none =>
      if keepBytes then
        match keepRoot with
        | none => (pr.1, .ok (false, Msg.missingKeepRoot), acts)
        | some kr =>
          let dst := shredDest origDirs randName kr
          if finFail then (pr.1, .ok (false, Msg.ioFailure), acts)
          else (pr.1, .ok (true, Msg.shredMoved dst),
                acts ++ [Action.mkdirs dst.dropLast, Action.move dst])
      else
        if finFail then (pr.1, .ok (false, Msg.ioFailure), acts)
        else (pr.1, .ok (true, Msg.shredDeleted), acts ++ [Action.unlink])

/-- One regular file found by `directory.rglob("*")`: its guard facts,
its anchor-relative directory and name, and the random name the
scramble will pick for it. -/
structure FileSpec where
  tgt : Target
  dirs : List String
  name : String
  rand : String
deriving DecidableEq

/-- The `for f in files:` loop of `shred_directory`.  Per file it calls
`shred_file` with the wrapped callback
`_file_cb(cur, tot) = progress(done + cur, total_passes)`; a
`(False, _)` outcome raises `ShredError(f"failed on {f}")` (catchable)
aborting the loop; a non-catchable exception from `shred_file`
propagates; on success `done += passes`.  `i` indexes files for the
per-file failure-injection oracles. -/
def dirFilesLoop {σ : Type} (passes : Int) (keepBytes : Bool)
    (keepRoot : Option (List String)) (ucb : Nat → Int → σ → σ × Option Exc)
    (ovFailF : Nat → Nat → Bool) (finFailF : Nat → Bool) (total : Int) :
    List FileSpec → Nat → Nat → σ → σ × Except Exc Unit × List Action
  | [], _, _, s => (s, .ok (), [])
  | f :: rest, i, done, s =>
    let r := shred_file f.tgt f.dirs f.name f.rand passes keepBytes keepRoot
      (fun cur _tot st => ucb (done + cur) total st)
      (ovFailF i) (finFailF i) s
    match r.2.1 with
    | .error e => (r.1, .error e, r.2.2)
    | .ok (true, _) =>
      ((dirFilesLoop passes keepBytes keepRoot ucb ovFailF finFailF total
          rest (i + 1) (done + passes.toNat) r.1).1,
       (dirFilesLoop passes keepBytes keepRoot ucb ovFailF finFailF total
          rest (i + 1) (done + passes.toNat) r.1).2.1,
       r.2.2 ++ (dirFilesLoop passes keepBytes keepRoot ucb ovFailF finFailF
          total rest (i + 1) (done + passes.toNat) r.1).2.2)
    | .ok (false, _) => (r.1, .error ⟨true, Msg.failedOnFile⟩, r.2.2)

/-- Model of `shred_directory(directory, passes=, keep_bytes=, keep_root=,
progress=)`.  Checks `directory.is_dir()`, then (when `keep_bytes` and a
`keep_root` were given) the containment guard `_is_subdir(keep_root,
directory)`; enumerates the files, fixes
`total_passes = len(files) * passes` before any work, runs the per-file
loop, and on success removes the tree (`keep_bytes=False` only).
`rmFail` injects an I/O failure into `shutil.rmtree`.  The outer
`except Exception` converts catchable errors to `(False, detail)`. -/
def shred_directory {σ : Type} (isDir : Bool) (dirPath : List String)
    (files : List FileSpec) (passes : Int) (keepBytes : Bool)
    (keepRoot : Option (List String)) (ucb : Nat → Int → σ → σ × Option Exc)
    (ovFailF : Nat → Nat → Bool) (finFailF : Nat → Bool) (rmFail : Bool)
    (s : σ) : σ × Except Exc (Bool × Msg) × List Action :=
  if isDir = false then (s, .ok (false, Msg.notADirectory), [])
  else if keepBytes &&
      (match keepRoot with
       | some kr => isSubdir kr dirPath
       | none => false) then
    (s, .ok (false, Msg.keepRootInside), [])
  else
    let total : Int := files.length * passes
    let r := dirFilesLoop passes keepBytes keepRoot ucb ovFailF finFailF total
      files 0 0 s
    match r.2.1 with
    | .error e =>
      if e.catchable then (r.1, .ok (false, e.tag), r.2.2)
      else (r.1, .error e, r.2.2)
    | .ok () =>
      if keepBytes then (r.1, .ok (true, Msg.dirShredded), r.2.2)
      else if rmFail then (r.1, .ok (false, Msg.ioFailure), r.2.2)
      else (r.1, .ok (true, Msg.dirShredded), r.2.2 ++ [Action.rmtree dirPath])

/-! ### Lemmas about the orchestrator model -/

theorem isPrefixOf_append (l t : List String) : l.isPrefixOf (l ++ t) = true := by
  induction l with
  | nil => simp
  | cons a r ih => simp [List.isPrefixOf, ih]

theorem shredDest_under_keepRoot (origDirs : List String) (rnd : String)
    (kr : List String) : kr.isPrefixOf (shredDest origDirs rnd kr) = true := by
  unfold shredDest
  split
  · exact isPrefixOf_append _ _
  · exact isPrefixOf_append _ _

theorem shredDest_getLast (origDirs : List String) (rnd : String)
    (kr : List String) : (shredDest origDirs rnd kr).getLast? = some rnd := by
  unfold shredDest
  split
  · exact List.getLast?_concat _
  · rw [← List.append_assoc]
    exact List.getLast?_concat _

theorem shredDest_structure (origDirs : List String) (rnd : String)
    (kr : List String) :
    shredDest origDirs rnd kr = kr ++ origDirs ++ [rnd] ∨
      (kr = origDirs ∧ shredDest origDirs rnd kr = kr ++ [rnd]) := by
  unfold shredDest
  split
  · next h => exact Or.inr ⟨h, rfl⟩
  · exact Or.inl (List.append_assoc kr origDirs [rnd]).symm

/-- Behaviour of `ovLoop` when the callback never raises and no I/O failure is
injected: one completed pass action per pass, in order, no exception. -/
theorem ovLoop_no_raise {σ : Type} (cb : Nat → Int → σ → σ × Option Exc)
    (total : Int) (hcb : ∀ p t s, (cb p t s).2 = none) :
    ∀ n p s, ∃ s', ovLoop cb (fun _ => false) total p n s =
      (s', (List.range n).map (fun k => Action.overwritePass (p + k)), none) := by
  intro n
  induction n with
  | zero => intro p s; exact ⟨s, rfl⟩
  | succ m ih =>
    intro p s
    obtain ⟨s', ih'⟩ := ih (p + 1) (cb p total s).1
    refine ⟨s', ?_⟩
    have hmap : (List.range (m + 1)).map (fun k => Action.overwritePass (p + k)) =
        Action.overwritePass p ::
          (List.range m).map (fun k => Action.overwritePass (p + 1 + k)) := by
      rw [List.range_succ_eq_map, List.map_cons, List.map_map, Nat.add_zero]
      congr 1
      apply List.map_congr_left
      intro k _
      simp only [Function.comp_apply]
      congr 1
      omega
    rw [hmap]
    simp only [ovLoop, hcb, ih']
    exact if_neg (by simp)

/-- Every exception pending after `ovLoop` is either the injected
(catchable) I/O failure or was raised by the callback. -/
theorem ovLoop_err_catchable {σ : Type} (cb : Nat → Int → σ → σ × Option Exc)
    (ovFail : Nat → Bool) (total : Int)
    (hcb : ∀ p t s e, (cb p t s).2 = some e → e.catchable = true) :
    ∀ n p s e, (ovLoop cb ovFail total p n s).2.2 = some e →
      e.catchable = true := by
  intro n
  induction n with
  | zero => intro p s e h; exact absurd h (by simp [ovLoop])
  | succ m ih =>
    intro p s e h
    rw [show ovLoop cb ovFail total p (m + 1) s =
        (if ovFail p then (s, [], some ⟨true, Msg.ioFailure⟩)
         else
           match (cb p total s).2 with
           | some e => ((cb p total s).1, [Action.overwritePass p], some e)
           | none =>
             ((ovLoop cb ovFail total (p + 1) m (cb p total s).1).1,
              Action.overwritePass p ::
                (ovLoop cb ovFail total (p + 1) m (cb p total s).1).2.1,
              (ovLoop cb ovFail total (p + 1) m (cb p total s).1).2.2)) from rfl]
      at h
    by_cases hf : ovFail p = true
    · rw [if_pos hf] at h
      have h2 : (⟨true, Msg.ioFailure⟩ : Exc) = e := Option.some.inj h
      rw [← h2]
    · rw [if_neg hf] at h
      rcases hoe : (cb p total s).2 with _ | e2
      · rw [hoe] at h
        exact ih (p + 1) (cb p total s).1 e h
      · rw [hoe] at h
        have h2 : e2 = e := Option.some.inj h
        subst h2
        exact hcb p total s e2 hoe

/-- Function `shred_file` returns a `(bool, message)` pair whenever the progress
callback raises only `Exception`-derived exceptions. -/
theorem shred_file_no_escape {σ : Type} (t : Target) (origDirs : List String)
    (origName : String) (randName : String) (passes : Int) (keepBytes : Bool)
    (keepRoot : Option (List String)) (cb : Nat → Int → σ → σ × Option Exc)
    (ovFail : Nat → Bool) (finFail : Bool) (s : σ)
    (hcb : ∀ p t s e, (cb p t s).2 = some e → e.catchable = true) :
    ∃ b m, (shred_file t origDirs origName randName passes keepBytes keepRoot
      cb ovFail finFail s).2.1 = Except.ok (b, m) := by
  unfold shred_file
  split
  · exact ⟨false, Msg.notFound, rfl⟩
  split
  · exact ⟨false, Msg.symlinkRefused, rfl⟩
  split
  · exact ⟨false, Msg.hardlinkRefused, rfl⟩
  split
  · exact ⟨false, Msg.invalidPass, rfl⟩
  dsimp only
  rcases hoe : (ovLoop cb ovFail passes 1 passes.toNat s).2.2 with _ | e
  · by_cases hkb : keepBytes = true
    · rw [if_pos hkb]
      rcases keepRoot with _ | kr
      · exact ⟨false, Msg.missingKeepRoot, rfl⟩
      · dsimp only
        by_cases hff : finFail = true
        · rw [if_pos hff]
          exact ⟨false, Msg.ioFailure, rfl⟩
        · rw [if_neg hff]
          exact ⟨true, _, rfl⟩
    · rw [if_neg hkb]
      by_cases hff : finFail = true
      · rw [if_pos hff]
        exact ⟨false, Msg.ioFailure, rfl⟩
      · rw [if_neg hff]
        exact ⟨true, Msg.shredDeleted, rfl⟩
  · have hc : e.catchable = true :=
      ovLoop_err_catchable cb ovFail passes hcb passes.toNat 1 s e hoe
    dsimp only
    rw [if_pos hc]
    exact ⟨false, e.tag, rfl⟩

/-- Any exception left pending by the per-file loop of
`shred_directory` is `Exception`-derived (the loop's own
`ShredError("failed on …")`), provided the directory-level progress
callback raises only `Exception`-derived exceptions. -/
theorem dirFilesLoop_err_catchable {σ : Type} (passes : Int)
    (keepBytes : Bool) (keepRoot : Option (List String))
    (ucb : Nat → Int → σ → σ × Option Exc) (ovFailF : Nat → Nat → Bool)
    (finFailF : Nat → Bool) (total : Int)
    (hucb : ∀ p t s e, (ucb p t s).2 = some e → e.catchable = true) :
    ∀ files i done s e,
      (dirFilesLoop passes keepBytes keepRoot ucb ovFailF finFailF total
        files i done s).2.1 = Except.error e → e.catchable = true := by
  intro files
  induction files with
  | nil => intro i done s e h; exact absurd h (by simp [dirFilesLoop])
  | cons f rest ih =>
    intro i done s e h
    have hwrap : ∀ p t s e,
        ((fun cur _tot st => ucb (done + cur) total st :
            Nat → Int → σ → σ × Option Exc) p t s).2 = some e →
          e.catchable = true := by
      intro p t s e he
      exact hucb (done + p) total s e he
    obtain ⟨b, m, hbm⟩ := shred_file_no_escape f.tgt f.dirs f.name f.rand passes
      keepBytes keepRoot (fun cur _tot st => ucb (done + cur) total st)
      (ovFailF i) (finFailF i) s hwrap
    simp only [dirFilesLoop] at h
    rw [hbm] at h
    cases b with
    | true => exact ih (i + 1) (done + passes.toNat) _ e h
    | false =>
      have h2 : (⟨true, Msg.failedOnFile⟩ : Exc) = e := Except.error.inj h
      rw [← h2]

/-- Function `shred_directory` returns a `(bool, message)` pair whenever the
progress callback raises only `Exception`-derived exceptions. -/
theorem shred_directory_no_escape {σ : Type} (isDir : Bool)
    (dirPath : List String) (files : List FileSpec) (passes : Int)
    (keepBytes : Bool) (keepRoot : Option (List String))
    (ucb : Nat → Int → σ → σ × Option Exc) (ovFailF : Nat → Nat → Bool)
    (finFailF : Nat → Bool) (rmFail : Bool) (s : σ)
    (hucb : ∀ p t s e, (ucb p t s).2 = some e → e.catchable = true) :
    ∃ b m, (shred_directory isDir dirPath files passes keepBytes keepRoot
      ucb ovFailF finFailF rmFail s).2.1 = Except.ok (b, m) := by
  unfold shred_directory
  split
  · exact ⟨false, Msg.notADirectory, rfl⟩
  split
  · exact ⟨false, Msg.keepRootInside, rfl⟩
  dsimp only
  rcases hloop : (dirFilesLoop passes keepBytes keepRoot ucb ovFailF finFailF
      (files.length * passes) files 0 0 s).2.1 with e | u
  · have hc : e.catchable = true :=
      dirFilesLoop_err_catchable passes keepBytes keepRoot ucb ovFailF
        finFailF (files.length * passes) hucb files 0 0 s e hloop
    dsimp only
    rw [if_pos hc]
    exact ⟨false, e.tag, rfl⟩
  · cases u
    by_cases hkb : keepBytes = true
    · rw [if_pos hkb]
      exact ⟨true, Msg.dirShredded, rfl⟩
    · rw [if_neg hkb]
      by_cases hrm : rmFail = true
      · rw [if_pos hrm]
        exact ⟨false, Msg.ioFailure, rfl⟩
      · rw [if_neg hrm]
        exact ⟨true, Msg.dirShredded, rfl⟩

/-! ### Claim theorems C4–C8 -/

/-- C4.  For every successful shred with `keep_bytes=True` and a
`keep_root`, the file is moved to `shredDest`, which lies under
`keep_root` (component prefix), whose leaf is the post-scramble random
name (not the original filename), and which preserves the
anchor-relative directory structure of the original location (in the
special case `keep_root == scrambled.parent` only the leaf is
appended). -/
theorem shred_file_keep_bytes_layout {σ : Type} (t : Target)
    (origDirs : List String) (origName randName : String) (kr : List String)
    (passes : Int) (cb : Nat → Int → σ → σ × Option Exc) (s : σ)
    (ht : t.refPresent = true) (hsl : t.isSymlink = false) (hn : t.nlink ≤ 1)
    (h1 : 1 ≤ passes) (h35 : passes ≤ 35)
    (hcb : ∀ p tot st, (cb p tot st).2 = none)
    (hrn : randName ≠ origName) :
    (∃ s', shred_file t origDirs origName randName passes true (some kr) cb
        (fun _ => false) false s =
      (s', Except.ok (true, Msg.shredMoved (shredDest origDirs randName kr)),
       Action.rename randName ::
         (List.range passes.toNat).map (fun k => Action.overwritePass (1 + k)) ++
         [Action.mkdirs (shredDest origDirs randName kr).dropLast,
          Action.move (shredDest origDirs randName kr)])) ∧
    kr.isPrefixOf (shredDest origDirs randName kr) = true ∧
    (shredDest origDirs randName kr).getLast? = some randName ∧
    (shredDest origDirs randName kr).getLast? ≠ some origName ∧
    (shredDest origDirs randName kr = kr ++ origDirs ++ [randName] ∨
      (kr = origDirs ∧ shredDest origDirs randName kr = kr ++ [randName])) := by
  obtain ⟨s', hov⟩ := ovLoop_no_raise cb passes hcb passes.toNat 1 s
  refine ⟨⟨s', ?_⟩, shredDest_under_keepRoot origDirs randName kr,
    shredDest_getLast origDirs randName kr, ?_,
    shredDest_structure origDirs randName kr⟩
  · unfold shred_file
    rw [if_neg (by simp [ht]), if_neg (by simp [hsl]), if_neg (by omega),
      if_neg (by omega), hov]
    rfl
  · rw [shredDest_getLast]
    simp [hrn]

/-- Witness for C4 at a concrete target, path and keep-root. -/
theorem shred_file_keep_bytes_layout_witness :
    (∃ s', shred_file (σ := Unit) ⟨true, false, 1⟩ ["home", "u"] "f.txt" "~ab"
        3 true (some ["keep"]) (fun _ _ st => (st, none)) (fun _ => false)
        false () =
      (s', Except.ok (true, Msg.shredMoved (shredDest ["home", "u"] "~ab" ["keep"])),
       Action.rename "~ab" ::
         (List.range (3 : Int).toNat).map (fun k => Action.overwritePass (1 + k)) ++
         [Action.mkdirs (shredDest ["home", "u"] "~ab" ["keep"]).dropLast,
          Action.move (shredDest ["home", "u"] "~ab" ["keep"])])) ∧
    (["keep"].isPrefixOf (shredDest ["home", "u"] "~ab" ["keep"]) = true) ∧
    (shredDest ["home", "u"] "~ab" ["keep"]).getLast? = some "~ab" ∧
    (shredDest ["home", "u"] "~ab" ["keep"]).getLast? ≠ some "f.txt" ∧
    (shredDest ["home", "u"] "~ab" ["keep"] = ["keep"] ++ ["home", "u"] ++ ["~ab"] ∨
      (["keep"] = ["home", "u"] ∧
        shredDest ["home", "u"] "~ab" ["keep"] = ["keep"] ++ ["~ab"])) :=
  shred_file_keep_bytes_layout ⟨true, false, 1⟩ ["home", "u"] "f.txt" "~ab"
    ["keep"] 3 (fun _ _ st => (st, none)) () rfl rfl (by decide) (by decide)
    (by decide) (fun _ _ _ => rfl) (by decide)

/-- C5 is false as stated: for a target that fails an earlier path
guard, an out-of-range `passes` is *not* what the failure reports.
Counterexample: a non-existent target with `passes = 0` reports
"target does not exist", because the existence/symlink/hard-link guards
run before the pass-range check (`secure_delete.py` lines 159–169). -/
theorem shred_file_invalid_passes_cex :
    (shred_file (σ := Unit) ⟨false, false, 1⟩ [] "f" "~r" 0 false none
        (fun _ _ st => (st, none)) (fun _ => false) false ()).2.1 =
      Except.ok (false, Msg.notFound) ∧ Msg.notFound ≠ Msg.invalidPass :=
  ⟨rfl, by decide⟩

/-- C5 (amended).  For every target and every `passes` outside `[1,35]`,
`shred_file` returns a failure outcome and performs no destructive I/O
(no rename, overwrite, unlink or move; the callback is never invoked);
the failure reports the invalid pass count whenever the target passes
the existence/symlink/hard-link guards, which are checked first. -/
theorem shred_file_invalid_passes {σ : Type} (t : Target)
    (origDirs : List String) (origName randName : String) (passes : Int)
    (keepBytes : Bool) (keepRoot : Option (List String))
    (cb : Nat → Int → σ → σ × Option Exc) (ovFail : Nat → Bool)
    (finFail : Bool) (s : σ) (hp : passes < 1 ∨ passes > 35) :
    ∃ m, shred_file t origDirs origName randName passes keepBytes keepRoot
        cb ovFail finFail s = (s, Except.ok (false, m), []) ∧
      (t.refPresent = true → t.isSymlink = false → t.nlink ≤ 1 →
        m = Msg.invalidPass) := by
  unfold shred_file
  split
  · next h =>
    refine ⟨Msg.notFound, rfl, ?_⟩
    intro h1 _ _
    rw [h1] at h
    exact absurd h (by decide)
  split
  · next h =>
    refine ⟨Msg.symlinkRefused, rfl, ?_⟩
    intro _ h2 _
    rw [h2] at h
    exact absurd h (by decide)
  split
  · next h =>
    refine ⟨Msg.hardlinkRefused, rfl, ?_⟩
    intro _ _ h3
    omega
  exact ⟨Msg.invalidPass, rfl, fun _ _ _ => rfl⟩

/-- Witness for the amended C5 at `passes = 36` on a guard-passing
target. -/
theorem shred_file_invalid_passes_witness :
    ∃ m, shred_file (σ := Unit) ⟨true, false, 1⟩ ["d"] "f" "~r" 36 false none
        (fun _ _ st => (st, none)) (fun _ => false) false () =
      ((), Except.ok (false, m), []) ∧
      ((⟨true, false, 1⟩ : Target).refPresent = true →
        (⟨true, false, 1⟩ : Target).isSymlink = false →
        (⟨true, false, 1⟩ : Target).nlink ≤ 1 → m = Msg.invalidPass) :=
  shred_file_invalid_passes ⟨true, false, 1⟩ ["d"] "f" "~r" 36 false none
    (fun _ _ st => (st, none)) (fun _ => false) false () (by decide)

/-- C6 is false as stated: a *dangling* symbolic link is reported as
"target does not exist", not as a symlink refusal, because
`Path.exists()` follows the link and is checked first
(`secure_delete.py` lines 159–163). -/
theorem shred_file_symlink_cex :
    (shred_file (σ := Unit) ⟨false, true, 1⟩ [] "f" "~r" 3 false none
        (fun _ _ st => (st, none)) (fun _ => false) false ()).2.1 =
      Except.ok (false, Msg.notFound) ∧ Msg.notFound ≠ Msg.symlinkRefused :=
  ⟨rfl, by decide⟩

/-- C6 (amended).  For every symbolic-link target, `shred_file` returns
a failure outcome and performs no destructive I/O (link and referent
untouched; the link is never shredded through); the failure reports the
symlink refusal whenever the link's referent exists, and reports
not-found for a dangling link. -/
theorem shred_file_symlink_refused {σ : Type} (t : Target)
    (origDirs : List String) (origName randName : String) (passes : Int)
    (keepBytes : Bool) (keepRoot : Option (List String))
    (cb : Nat → Int → σ → σ × Option Exc) (ovFail : Nat → Bool)
    (finFail : Bool) (s : σ) (hl : t.isSymlink = true) :
    ∃ m, shred_file t origDirs origName randName passes keepBytes keepRoot
        cb ovFail finFail s = (s, Except.ok (false, m), []) ∧
      (t.refPresent = true → m = Msg.symlinkRefused) := by
  unfold shred_file
  split
  · next h =>
    refine ⟨Msg.notFound, rfl, ?_⟩
    intro h1
    rw [h1] at h
    exact absurd h (by decide)
  exact ⟨Msg.symlinkRefused, rfl, fun _ => rfl⟩

/-- Witness for the amended C6 on a symlink whose referent exists. -/
theorem shred_file_symlink_refused_witness :
    ∃ m, shred_file (σ := Unit) ⟨true, true, 1⟩ ["d"] "f" "~r" 3 false none
        (fun _ _ st => (st, none)) (fun _ => false) false () =
      ((), Except.ok (false, m), []) ∧
      ((⟨true, true, 1⟩ : Target).refPresent = true → m = Msg.symlinkRefused) :=
  shred_file_symlink_refused ⟨true, true, 1⟩ ["d"] "f" "~r" 3 false none
    (fun _ _ st => (st, none)) (fun _ => false) false () rfl

/-- C7.  For every directory shred with `keep_bytes=True` whose
`keep_root` is equal to (`rest = []`) or nested inside the target
directory (component-prefix semantics, as implemented by
`keep_root.relative_to(directory)` succeeding), `shred_directory`
returns a failure outcome immediately: no file is renamed, overwritten
or deleted, and the callback state is untouched. -/
theorem shred_directory_containment {σ : Type} (dirPath rest : List String)
    (files : List FileSpec) (passes : Int)
    (ucb : Nat → Int → σ → σ × Option Exc) (ovFailF : Nat → Nat → Bool)
    (finFailF : Nat → Bool) (rmFail : Bool) (s : σ) :
    shred_directory true dirPath files passes true (some (dirPath ++ rest))
        ucb ovFailF finFailF rmFail s =
      (s, Except.ok (false, Msg.keepRootInside), []) := by
  unfold shred_directory
  rw [if_neg (by simp), if_pos (by simp [isSubdir, isPrefixOf_append])]

/-- Witness for C7 in the `keep_root == directory` (equal) case with a
non-empty directory. -/
theorem shred_directory_containment_witness :
    shred_directory (σ := Unit) true ["d"]
        [⟨⟨true, false, 1⟩, ["d"], "a", "~x"⟩] 3 true (some (["d"] ++ []))
        (fun _ _ st => (st, none)) (fun _ _ => false) (fun _ => false) false () =
      ((), Except.ok (false, Msg.keepRootInside), []) :=
  shred_directory_containment ["d"] [] [⟨⟨true, false, 1⟩, ["d"], "a", "~x"⟩]
    3 (fun _ _ st => (st, none)) (fun _ _ => false) (fun _ => false) false ()

/-- C8 is false as stated: a progress callback raising a
`BaseException`-derived exception (`catchable = false`, e.g.
`KeyboardInterrupt` or `SystemExit`) propagates across the public
boundary, because the code catches only `Exception`
(`secure_delete.py` lines 190, 242). -/
theorem shred_api_exception_policy_cex :
    (shred_file (σ := Unit) ⟨true, false, 1⟩ [] "f" "~r" 1 false none
        (fun _ _ st => (st, some ⟨false, Msg.ioFailure⟩)) (fun _ => false)
        false ()).2.1 = Except.error ⟨false, Msg.ioFailure⟩ ∧
    ∀ b m, (Except.error ⟨false, Msg.ioFailure⟩ :
        Except Exc (Bool × Msg)) ≠ Except.ok (b, m) :=
  ⟨rfl, fun _ _ h => Except.noConfusion h⟩

/-- C8 (amended).  For every input — any target, any `passes`, any
`keepBytes`/`keepRoot`, arbitrary injected I/O failures, and any
progress callback whose raised exceptions all derive from `Exception` —
`shred_file` and `shred_directory` return a `(bool, message)` pair and
propagate no exception; every validation or I/O failure is converted to
a `(false, detail)` outcome.  (Only a callback raising a
`BaseException`-derived exception escapes; see the counterexample.) -/
theorem shred_api_exception_policy {σ σ2 : Type} (t : Target)
    (origDirs : List String) (origName randName : String) (passes : Int)
    (keepBytes : Bool) (keepRoot : Option (List String))
    (cb : Nat → Int → σ → σ × Option Exc) (ovFail : Nat → Bool)
    (finFail : Bool) (s : σ) (isDir : Bool) (dirPath : List String)
    (files : List FileSpec) (passesD : Int) (keepBytesD : Bool)
    (keepRootD : Option (List String)) (ucb : Nat → Int → σ2 → σ2 × Option Exc)
    (ovFailF : Nat → Nat → Bool) (finFailF : Nat → Bool) (rmFail : Bool)
    (s2 : σ2)
    (hcb : ∀ p tot st e, (cb p tot st).2 = some e → e.catchable = true)
    (hucb : ∀ p tot st e, (ucb p tot st).2 = some e → e.catchable = true) :
    (∃ b m, (shred_file t origDirs origName randName passes keepBytes keepRoot
        cb ovFail finFail s).2.1 = Except.ok (b, m)) ∧
    (∃ b m, (shred_directory isDir dirPath files passesD keepBytesD keepRootD
        ucb ovFailF finFailF rmFail s2).2.1 = Except.ok (b, m)) :=
  ⟨shred_file_no_escape t origDirs origName randName passes keepBytes keepRoot
      cb ovFail finFail s hcb,
   shred_directory_no_escape isDir dirPath files passesD keepBytesD keepRootD
      ucb ovFailF finFailF rmFail s2 hucb⟩

/-- Witness for the amended C8 with an always-catchable (in fact
never-raising) callback, on concrete inputs. -/
theorem shred_api_exception_policy_witness :
    (∃ b m, (shred_file (σ := Unit) ⟨true, false, 1⟩ ["d"] "f" "~r" 3 false
        none (fun _ _ st => (st, none)) (fun _ => false) false ()).2.1 =
      Except.ok (b, m)) ∧
    (∃ b m, (shred_directory (σ := Unit) true ["d"]
        [⟨⟨true, false, 1⟩, ["d"], "a", "~x"⟩] 3 false none
        (fun _ _ st => (st, none)) (fun _ _ => false) (fun _ => false) false
        ()).2.1 = Except.ok (b, m)) :=
  shred_api_exception_policy ⟨true, false, 1⟩ ["d"] "f" "~r" 3 false none
    (fun _ _ st => (st, none)) (fun _ => false) false () true ["d"]
    [⟨⟨true, false, 1⟩, ["d"], "a", "~x"⟩] 3 false none
    (fun _ _ st => (st, none)) (fun _ _ => false) (fun _ => false) false ()
    (fun _ _ _ _ h => Option.noConfusion h)
    (fun _ _ _ _ h => Option.noConfusion h)

/-! ### C3: aggregated progress reporting of `shred_directory`

The progress callback is modelled as a recording callback over
`σ := List (Nat × Int)`: every invocation appends its `(completed,
total)` arguments.  `shred_directory` wraps the caller's callback as
`_file_cb(cur, tot) = progress(done + cur, total_passes)` with
`done = filesCompletedSoFar * passes`. -/

theorem ovLoop_record (done : Nat) (total T : Int) :
    ∀ n p (s : List (Nat × Int)),
      ovLoop (fun cur _tot st => (st ++ [(done + cur, total)], none))
        (fun _ => false) T p n s =
      (s ++ (List.range n).map (fun k => (done + (p + k), total)),
       (List.range n).map (fun k => Action.overwritePass (p + k)), none) := by
  intro n
  induction n with
  | zero => intro p s; simp [ovLoop]
  | succ m ih =>
    intro p s
    have step : ovLoop (fun cur _tot st => (st ++ [(done + cur, total)], none))
        (fun _ => false) T p (m + 1) s =
      ((ovLoop (fun cur _tot st => (st ++ [(done + cur, total)], none))
          (fun _ => false) T (p + 1) m (s ++ [(done + p, total)])).1,
       Action.overwritePass p ::
         (ovLoop (fun cur _tot st => (st ++ [(done + cur, total)], none))
           (fun _ => false) T (p + 1) m (s ++ [(done + p, total)])).2.1,
       (ovLoop (fun cur _tot st => (st ++ [(done + cur, total)], none))
         (fun _ => false) T (p + 1) m (s ++ [(done + p, total)])).2.2) := rfl
    rw [step, ih (p + 1) (s ++ [(done + p, total)])]
    have h1 : (List.range (m + 1)).map (fun k => (done + (p + k), total)) =
        (done + p, total) ::
          (List.range m).map (fun k => (done + (p + 1 + k), total)) := by
      rw [List.range_succ_eq_map, List.map_cons, List.map_map, Nat.add_zero]
      congr 1
      apply List.map_congr_left
      intro k _
      simp only [Function.comp_apply, Prod.mk.injEq]
      exact ⟨by omega, trivial⟩
    have h2 : (List.range (m + 1)).map (fun k => Action.overwritePass (p + k)) =
        Action.overwritePass p ::
          (List.range m).map (fun k => Action.overwritePass (p + 1 + k)) := by
      rw [List.range_succ_eq_map, List.map_cons, List.map_map, Nat.add_zero]
      congr 1
      apply List.map_congr_left
      intro k _
      simp only [Function.comp_apply]
      congr 1
      omega
    rw [h1, h2]
    simp [List.append_assoc]

/-- A successful `shred_file` with the recording callback wrapped as by
`shred_directory`: the recorded calls are `(done + p, total)` for
`p = 1..passes`. -/
theorem shred_file_record (t : Target) (dirs : List String) (nm rnd : String)
    (P : Int) (done : Nat) (total : Int) (s : List (Nat × Int))
    (kr : Option (List String))
    (ht : t.refPresent = true) (hsl : t.isSymlink = false) (hn : t.nlink ≤ 1)
    (h1 : 1 ≤ P) (h35 : P ≤ 35) :
    shred_file t dirs nm rnd P false kr
        (fun cur _tot st => (st ++ [(done + cur, total)], none))
        (fun _ => false) false s =
      (s ++ (List.range P.toNat).map (fun k => (done + (1 + k), total)),
       Except.ok (true, Msg.shredDeleted),
       Action.rename rnd ::
         (List.range P.toNat).map (fun k => Action.overwritePass (1 + k)) ++
         [Action.unlink]) := by
  unfold shred_file
  rw [if_neg (by simp [ht]), if_neg (by simp [hsl]), if_neg (by omega),
    if_neg (by omega), ovLoop_record done total P P.toNat 1 s]
  rfl

theorem dirFilesLoop_record (P total : Int) (kr : Option (List String))
    (h1 : 1 ≤ P) (h35 : P ≤ 35) :
    ∀ (files : List FileSpec),
      (∀ f ∈ files, f.tgt.refPresent = true ∧ f.tgt.isSymlink = false ∧
        f.tgt.nlink ≤ 1) →
    ∀ i done (s : List (Nat × Int)), ∃ acts,
      dirFilesLoop P false kr (fun a b st => (st ++ [(a, b)], none))
          (fun _ _ => false) (fun _ => false) total files i done s =
        (s ++ (List.range (files.length * P.toNat)).map
            (fun k => (done + (k + 1), total)),
         Except.ok (), acts) := by
  intro files
  induction files with
  | nil =>
    intro _ i done s
    exact ⟨[], by simp [dirFilesLoop]⟩
  | cons f rest ih =>
    intro hf i done s
    obtain ⟨hf1, hf2, hf3⟩ := hf f (List.mem_cons_self f rest)
    obtain ⟨acts2, hrec⟩ := ih (fun g hg => hf g (List.mem_cons_of_mem f hg))
      (i + 1) (done + P.toNat)
      (s ++ (List.range P.toNat).map (fun k => (done + (1 + k), total)))
    refine ⟨(Action.rename f.rand ::
        (List.range P.toNat).map (fun k => Action.overwritePass (1 + k)) ++
        [Action.unlink]) ++ acts2, ?_⟩
    simp only [dirFilesLoop]
    rw [shred_file_record f.tgt f.dirs f.name f.rand P done total s kr hf1 hf2
      hf3 h1 h35]
    dsimp only
    rw [hrec]
    have hblocks :
        (List.range P.toNat).map (fun k => (done + (1 + k), total)) ++
          (List.range (rest.length * P.toNat)).map
            (fun k => (done + P.toNat + (k + 1), total)) =
        (List.range ((f :: rest).length * P.toNat)).map
          (fun k => (done + (k + 1), total)) := by
      rw [List.length_cons,
        show (rest.length + 1) * P.toNat = P.toNat + rest.length * P.toNat by
          ring, List.range_add, List.map_append, List.map_map]
      congr 1
      · apply List.map_congr_left
        intro k _
        simp only [Prod.mk.injEq]
        exact ⟨by omega, trivial⟩
      · apply List.map_congr_left
        intro k _
        simp only [Function.comp_apply, Prod.mk.injEq]
        exact ⟨by omega, trivial⟩
    rw [← hblocks, List.append_assoc]

/-- Enumerating `F` files of `P` passes each block-by-block is the same
as counting `1..F*P` consecutively. -/
theorem range_mul_flatMap (Pn : Nat) (T : Int) :
    ∀ F, (List.range F).flatMap
        (fun i => (List.range Pn).map (fun p => (i * Pn + (p + 1), T))) =
      (List.range (F * Pn)).map (fun k => (k + 1, T)) := by
  intro F
  induction F with
  | zero => simp
  | succ m ih =>
    rw [List.range_succ, List.flatMap_append, ih,
      show (m + 1) * Pn = m * Pn + Pn by ring, List.range_add,
      List.map_append, List.map_map]
    congr 1
    simp only [List.flatMap_cons, List.flatMap_nil, List.append_nil]
    apply List.map_congr_left
    intro k _
    simp only [Function.comp_apply, Prod.mk.injEq]
    exact ⟨by omega, trivial⟩

/-- C3.  For a directory of `F` guard-passing files shredded
successfully with `passes = P` and a (recording) progress callback, the
callback is invoked exactly `F * P` times; every invocation's second
argument is `F * P` (the `total_passes` fixed before the walk); the
first arguments are `filesCompletedSoFar * P + currentFilePass`, i.e.
exactly `1, 2, …, F*P` in order — monotonically non-decreasing. -/
theorem shred_directory_progress_spec (dirPath : List String)
    (files : List FileSpec) (P : Int) (kr : Option (List String))
    (h1 : 1 ≤ P) (h35 : P ≤ 35)
    (hf : ∀ f ∈ files, f.tgt.refPresent = true ∧ f.tgt.isSymlink = false ∧
      f.tgt.nlink ≤ 1) :
    ∃ res acts,
      shred_directory true dirPath files P false kr
          (fun a b st => (st ++ [(a, b)], none)) (fun _ _ => false)
          (fun _ => false) false [] =
        (res, Except.ok (true, Msg.dirShredded), acts) ∧
      res = (List.range files.length).flatMap (fun i =>
        (List.range P.toNat).map
          (fun p => (i * P.toNat + (p + 1), (files.length : Int) * P))) ∧
      res = (List.range (files.length * P.toNat)).map
        (fun k => (k + 1, (files.length : Int) * P)) ∧
      res.length = files.length * P.toNat ∧
      (∀ pr ∈ res, pr.2 = (files.length : Int) * P) ∧
      List.Pairwise (fun a b : Nat × Int => a.1 ≤ b.1) res := by
  obtain ⟨acts, hloop⟩ := dirFilesLoop_record P ((files.length : Int) * P) kr
    h1 h35 files hf 0 0 []
  refine ⟨(List.range (files.length * P.toNat)).map
      (fun k => (k + 1, (files.length : Int) * P)),
    acts ++ [Action.rmtree dirPath], ?_, ?_, rfl, ?_, ?_, ?_⟩
  · unfold shred_directory
    rw [if_neg (by simp)]
    rw [if_neg (by simp)]
    dsimp only
    rw [hloop]
    simp
  · rw [range_mul_flatMap]
  · simp
  · intro pr hpr
    simp only [List.mem_map] at hpr
    obtain ⟨k, _, rfl⟩ := hpr
    rfl
  · refine List.Pairwise.map _ ?_ (List.pairwise_lt_range (files.length * P.toNat))
    intro a b hab
    simpa using Nat.le_of_lt (Nat.succ_lt_succ hab)

/-- Witness for C3 with two files and two passes. -/
theorem shred_directory_progress_spec_witness :
    ∃ res acts,
      shred_directory true ["d"]
          [⟨⟨true, false, 1⟩, ["d"], "a", "~x"⟩,
           ⟨⟨true, false, 1⟩, ["d"], "b", "~y"⟩] 2 false none
          (fun a b st => (st ++ [(a, b)], none)) (fun _ _ => false)
          (fun _ => false) false [] =
        (res, Except.ok (true, Msg.dirShredded), acts) ∧
      res = (List.range 2).flatMap (fun i =>
        (List.range (2 : Int).toNat).map
          (fun p => (i * (2 : Int).toNat + (p + 1), ((2 : Nat) : Int) * 2))) ∧
      res = (List.range (2 * (2 : Int).toNat)).map
        (fun k => (k + 1, ((2 : Nat) : Int) * 2)) ∧
      res.length = 2 * (2 : Int).toNat ∧
      (∀ pr ∈ res, pr.2 = ((2 : Nat) : Int) * 2) ∧
      List.Pairwise (fun a b : Nat × Int => a.1 ≤ b.1) res :=
  shred_directory_progress_spec ["d"]
    [⟨⟨true, false, 1⟩, ["d"], "a", "~x"⟩, ⟨⟨true, false, 1⟩, ["d"], "b", "~y"⟩]
    2 none (by decide) (by decide) (by decide)

/-! ## Secret Registry & Cleanup Manager
(`tools/wipe_manager.py`, `tools/wipe_core.py`)

`CleanupManager` holds `paths` (wipe targets), `key_blobs` (owned
secret-buffer copies) and a `_ran` flag.  Python buffers are aliased
mutable objects, so the model uses an explicit heap: `Heap.mem` maps an
address to a buffer's bytes and `Heap.next` is the allocation bound
(every allocated address is `< next`; fresh allocations take `next`).
`add_secret(secret)` appends `bytearray(secret)` — a *fresh copy* of
the caller's bytes, for both `bytes` and `bytearray` arguments — so the
model allocates a new address initialised from the source.

`wipe()` runs under `self._lock`, which covers the `_ran` check and the
whole body; the lock serialises concurrent invocations, so a call is
modelled as one atomic step and any number of concurrent call sites as
`wipeIter n`.  The body: when `WIPE_FILES` is enabled, shred every
registered path, each in `try/except Exception` (failure swallowed);
then `scrub_bytes` (zero-fill in place) every registered blob, each in
`try/except Exception`; then `flush_clipboard()`.  The failure oracles
`sf`/`scf` mark which shred/scrub sub-steps raise; the sub-steps are
fixed repository code whose failures (`OSError`, `ValueError`, …) all
derive from `Exception`, hence are swallowed — modelled as the step
having no effect.  The trace records every *attempted* sub-step. -/

/-- Addressed store of byte buffers.  Addresses `< next` are
allocated. -/
structure Heap where
  mem : Nat → List Nat
  next : Nat

/-- The `CleanupManager` state: registered path ids, addresses of the owned
secret-buffer copies (`key_blobs`), and the `_ran` flag. -/
structure CM where
  pathIds : List Nat
  keyBlobs : List Nat
  ran : Bool

/-- Observable world besides the manager: the heap of buffers, how many
times the clipboard has been cleared, and which paths were shredded. -/
structure World where
  heap : Heap
  clipCleared : Nat
  shredded : List Nat

/-- Attempted wipe sub-steps, in execution order. -/
inductive WStep where
  | shredP (p : Nat)
  | scrub (a : Nat)
  | clip
deriving DecidableEq

/-- Constant `wipe_manager.WIPE_FILES = False` (path shredding disabled by
default; the wipe model is parametrised over the flag's value). -/
def WIPE_FILES : Bool := false

/-- Model of `scrub_bytes` on the buffer at `a`: in-place zero-fill
(`mv[i] = 0` for every index), length preserved. -/
def scrubAddr (h : Heap) (a : Nat) : Heap :=
  ⟨fun x => if x = a then List.replicate (h.mem a).length 0 else h.mem x,
   h.next⟩

/-- The loop `for p in list(self.paths): try: shred_path(p) except Exception: …`.
A failing shred (`sf p = true`) is swallowed with no effect; every
iteration is attempted and recorded. -/
def shredLoop (sf : Nat → Bool) : World → List Nat → World × List WStep
  | w, [] => (w, [])
  | w, p :: rest =>
    let w1 := if sf p then w else { w with shredded := w.shredded ++ [p] }
    ((shredLoop sf w1 rest).1, WStep.shredP p :: (shredLoop sf w1 rest).2)

/-- The loop `for k in self.key_blobs: try: scrub_bytes(k) except Exception:
pass`.  A failing scrub is swallowed with no effect. -/
def scrubLoop (scf : Nat → Bool) : World → List Nat → World × List WStep
  | w, [] => (w, [])
  | w, a :: rest =>
    let w1 := if scf a then w else { w with heap := scrubAddr w.heap a }
    ((scrubLoop scf w1 rest).1, WStep.scrub a :: (scrubLoop scf w1 rest).2)

/-- The body of `CleanupManager.wipe()` (inside the lock, after the
`_ran` check): optional path shredding, then scrubbing of all
registered blobs, then `flush_clipboard()`. -/
def wipeBody (wipeFiles : Bool) (sf scf : Nat → Bool) (cm : CM) (w : World) :
    World × List WStep :=
  let r1 := if wipeFiles then shredLoop sf w cm.pathIds else (w, [])
  let r2 := scrubLoop scf r1.1 cm.keyBlobs
  ({ r2.1 with clipCleared := r2.1.clipCleared + 1 },
   r1.2 ++ r2.2 ++ [WStep.clip])

/-- Model of `CleanupManager.wipe()`: under the lock, return immediately if
`_ran` is set, else set it and run the body.  The lock makes the whole
call atomic with respect to other invocations. -/
def wipe (wipeFiles : Bool) (sf scf : Nat → Bool) (cm : CM) (w : World) :
    CM × World × List WStep :=
  if cm.ran then (cm, w, [])
  else ({ cm with ran := true }, (wipeBody wipeFiles sf scf cm w).1,
        (wipeBody wipeFiles sf scf cm w).2)

/-- Runs `n` serialised invocations of `wipe()` (from any mixture of signal
handlers, exception hooks, atexit and explicit callers — the lock
serialises them), concatenating the performed sub-step traces. -/
def wipeIter (wipeFiles : Bool) (sf scf : Nat → Bool) :
    Nat → CM → World → CM × World × List WStep
  | 0, cm, w => (cm, w, [])
  | n + 1, cm, w =>
    ((wipeIter wipeFiles sf scf n (wipe wipeFiles sf scf cm w).1
        (wipe wipeFiles sf scf cm w).2.1).1,
     (wipeIter wipeFiles sf scf n (wipe wipeFiles sf scf cm w).1
        (wipe wipeFiles sf scf cm w).2.1).2.1,
     (wipe wipeFiles sf scf cm w).2.2 ++
       (wipeIter wipeFiles sf scf n (wipe wipeFiles sf scf cm w).1
         (wipe wipeFiles sf scf cm w).2.1).2.2)

/-- Model of `CleanupManager.add_secret(secret)`:
`self.key_blobs.append(bytearray(secret))` — allocate a fresh buffer
initialised with the caller's bytes and register its address. -/
def add_secret (cm : CM) (h : Heap) (src : Nat) : CM × Heap :=
  ({ cm with keyBlobs := cm.keyBlobs ++ [h.next] },
   ⟨fun a => if a = h.next then h.mem src else h.mem a, h.next + 1⟩)

/-- A sequence of `add_secret` calls. -/
def registerAll : CM → Heap → List Nat → CM × Heap
  | cm, h, [] => (cm, h)
  | cm, h, src :: rest =>
    registerAll (add_secret cm h src).1 (add_secret cm h src).2 rest

/-! ### Lemmas about the cleanup model -/

theorem shredLoop_heap (sf : Nat → Bool) :
    ∀ l w, (shredLoop sf w l).1.heap = w.heap ∧
      (shredLoop sf w l).1.clipCleared = w.clipCleared := by
  intro l
  induction l with
  | nil => intro w; exact ⟨rfl, rfl⟩
  | cons p rest ih =>
    intro w
    by_cases hp : sf p = true <;> simp [shredLoop, hp, ih]

theorem shredLoop_trace (sf : Nat → Bool) :
    ∀ l w, (shredLoop sf w l).2 = l.map WStep.shredP := by
  intro l
  induction l with
  | nil => intro w; rfl
  | cons p rest ih => intro w; simp [shredLoop, ih]

theorem scrubLoop_trace (scf : Nat → Bool) :
    ∀ l w, (scrubLoop scf w l).2 = l.map WStep.scrub := by
  intro l
  induction l with
  | nil => intro w; rfl
  | cons a rest ih => intro w; simp [scrubLoop, ih]

theorem scrubLoop_clip (scf : Nat → Bool) :
    ∀ l w, (scrubLoop scf w l).1.clipCleared = w.clipCleared := by
  intro l
  induction l with
  | nil => intro w; rfl
  | cons a rest ih =>
    intro w
    by_cases ha : scf a = true <;> simp [scrubLoop, ha, ih, scrubAddr]

theorem scrubLoop_frame (scf : Nat → Bool) :
    ∀ l w a, a ∉ l → (scrubLoop scf w l).1.heap.mem a = w.heap.mem a := by
  intro l
  induction l with
  | nil => intro w a _; rfl
  | cons b rest ih =>
    intro w a ha
    have hab : a ≠ b := fun h => ha (h ▸ List.mem_cons_self b rest)
    have harest : a ∉ rest := fun h => ha (List.mem_cons_of_mem b h)
    by_cases hb : scf b = true
    · simp only [scrubLoop, if_pos hb]
      exact ih w a harest
    · simp only [scrubLoop, if_neg hb]
      rw [ih _ a harest]
      simp [scrubAddr, hab]

theorem scrubLoop_zero_stable (scf : Nat → Bool) :
    ∀ l w a L, w.heap.mem a = List.replicate L 0 →
      (scrubLoop scf w l).1.heap.mem a = List.replicate L 0 := by
  intro l
  induction l with
  | nil => intro w a L h; exact h
  | cons b rest ih =>
    intro w a L h
    by_cases hb : scf b = true
    · simp only [scrubLoop, if_pos hb]
      exact ih w a L h
    · simp only [scrubLoop, if_neg hb]
      by_cases hab : a = b
      · subst hab
        refine ih _ a L ?_
        simp [scrubAddr, h]
      · refine ih _ a L ?_
        simp [scrubAddr, hab, h]

theorem scrubLoop_zeroed (scf : Nat → Bool) :
    ∀ l w a, a ∈ l → scf a = false →
      (scrubLoop scf w l).1.heap.mem a =
        List.replicate ((w.heap.mem a).length) 0 := by
  intro l
  induction l with
  | nil => intro w a ha; exact absurd ha (List.not_mem_nil a)
  | cons b rest ih =>
    intro w a ha hscf
    by_cases hab : a = b
    · subst hab
      simp only [scrubLoop]
      rw [if_neg (show ¬ scf a = true by simp [hscf])]
      exact scrubLoop_zero_stable scf rest _ a (w.heap.mem a).length
        (by simp [scrubAddr])
    · have harest : a ∈ rest := by
        rcases List.mem_cons.mp ha with h | h
        · exact absurd h hab
        · exact h
      by_cases hb : scf b = true
      · simp only [scrubLoop, if_pos hb]
        exact ih w a harest hscf
      · simp only [scrubLoop, if_neg hb]
        rw [ih _ a harest hscf]
        simp [scrubAddr, hab]

theorem registerAll_mem_lt :
    ∀ srcs cm h a, a < h.next →
      ((registerAll cm h srcs).2).mem a = h.mem a := by
  intro srcs
  induction srcs with
  | nil => intro cm h a _; rfl
  | cons src rest ih =>
    intro cm h a ha
    simp only [registerAll]
    rw [ih _ _ a (by simp [add_secret]; omega)]
    simp [add_secret]
    intro hc
    omega

theorem registerAll_next_le :
    ∀ srcs cm h, h.next ≤ (registerAll cm h srcs).2.next := by
  intro srcs
  induction srcs with
  | nil => intro cm h; exact le_rfl
  | cons src rest ih =>
    intro cm h
    have h2 := ih (add_secret cm h src).1 (add_secret cm h src).2
    have hnext : (add_secret cm h src).2.next = h.next + 1 := rfl
    show h.next ≤
      (registerAll (add_secret cm h src).1 (add_secret cm h src).2 rest).2.next
    omega

theorem registerAll_blobs :
    ∀ srcs cm h b, b ∈ (registerAll cm h srcs).1.keyBlobs →
      b ∈ cm.keyBlobs ∨ h.next ≤ b := by
  intro srcs
  induction srcs with
  | nil => intro cm h b hb; exact Or.inl hb
  | cons src rest ih =>
    intro cm h b hb
    simp only [registerAll] at hb
    rcases ih _ _ b hb with h1 | h1
    · simp only [add_secret, List.mem_append, List.mem_singleton] at h1
      rcases h1 with h1 | h1
      · exact Or.inl h1
      · exact Or.inr (le_of_eq h1.symm)
    · simp only [add_secret] at h1
      exact Or.inr (by omega)

/-! ### Claim theorems C2, C9, C10 -/

/-- C2.  `wipe()` runs its body at most once per process: for any
number `n ≥ 1` of (lock-serialised) invocations from any call sites,
the result equals that of a single invocation — the body's side effects
happen exactly once and the combined sub-step trace is one body trace —
and every invocation on an already-run manager is a no-op.  The Python
`with self._lock:` covers both the `_ran` check and the whole body,
which is what justifies modelling one call as an atomic step. -/
theorem wipe_runs_at_most_once (wipeFiles : Bool) (sf scf : Nat → Bool)
    (cm : CM) (w : World) (n : Nat) (hn : 1 ≤ n) (hr : cm.ran = false) :
    wipeIter wipeFiles sf scf n cm w =
      ({ cm with ran := true }, (wipeBody wipeFiles sf scf cm w).1,
       (wipeBody wipeFiles sf scf cm w).2) ∧
    (∀ m cmr wr, cmr.ran = true →
      wipeIter wipeFiles sf scf m cmr wr = (cmr, wr, [])) := by
  have hnoop : ∀ m cmr wr, cmr.ran = true →
      wipeIter wipeFiles sf scf m cmr wr = (cmr, wr, []) := by
    intro m
    induction m with
    | zero => intro cmr wr _; rfl
    | succ k ih =>
      intro cmr wr hrr
      have hw : wipe wipeFiles sf scf cmr wr = (cmr, wr, []) := by
        unfold wipe
        rw [if_pos hrr]
      simp only [wipeIter, hw, ih cmr wr hrr]
      rfl
  refine ⟨?_, hnoop⟩
  cases n with
  | zero => omega
  | succ k =>
    have hw : wipe wipeFiles sf scf cm w =
        ({ cm with ran := true }, (wipeBody wipeFiles sf scf cm w).1,
         (wipeBody wipeFiles sf scf cm w).2) := by
      unfold wipe
      rw [if_neg (by simp [hr])]
    simp only [wipeIter, hw,
      hnoop k { cm with ran := true } (wipeBody wipeFiles sf scf cm w).1 rfl]
    simp

/-- Witness for C2: three invocations on a fresh manager equal one. -/
theorem wipe_runs_at_most_once_witness :
    (wipeIter false (fun _ => false) (fun _ => false) 3
        ⟨[7], [4], false⟩ ⟨⟨fun _ => [], 0⟩, 0, []⟩ =
      ({ (⟨[7], [4], false⟩ : CM) with ran := true },
       (wipeBody false (fun _ => false) (fun _ => false) ⟨[7], [4], false⟩
         ⟨⟨fun _ => [], 0⟩, 0, []⟩).1,
       (wipeBody false (fun _ => false) (fun _ => false) ⟨[7], [4], false⟩
         ⟨⟨fun _ => [], 0⟩, 0, []⟩).2)) ∧
    (∀ m cmr wr, cmr.ran = true →
      wipeIter false (fun _ => false) (fun _ => false) m cmr wr =
        (cmr, wr, [])) :=
  wipe_runs_at_most_once false (fun _ => false) (fun _ => false)
    ⟨[7], [4], false⟩ ⟨⟨fun _ => [], 0⟩, 0, []⟩ 3 (by decide) rfl

/-- C9.  Within the wipe body, a failure of any shred or scrub sub-step
(swallowed by its own `except Exception`) never prevents the later
sub-steps: for every failure pattern, every registered path shred and
every registered buffer scrub is attempted in order and the clipboard
clear still runs (`clipCleared` increments); moreover every scrub whose
own step does not fail zero-fills its buffer even when other sub-steps
failed. -/
theorem wipe_substep_failures_swallowed (wipeFiles : Bool)
    (sf scf : Nat → Bool) (cm : CM) (w : World) :
    (wipeBody wipeFiles sf scf cm w).2 =
      (if wipeFiles then cm.pathIds.map WStep.shredP else []) ++
        cm.keyBlobs.map WStep.scrub ++ [WStep.clip] ∧
    (wipeBody wipeFiles sf scf cm w).1.clipCleared = w.clipCleared + 1 ∧
    (∀ a ∈ cm.keyBlobs, scf a = false →
      (wipeBody wipeFiles sf scf cm w).1.heap.mem a =
        List.replicate ((w.heap.mem a).length) 0) := by
  unfold wipeBody
  by_cases hwf : wipeFiles = true
  · rw [if_pos hwf, if_pos hwf]
    refine ⟨by simp [shredLoop_trace, scrubLoop_trace], ?_, ?_⟩
    · simp [scrubLoop_clip, (shredLoop_heap sf cm.pathIds w).2]
    · intro a ha hscf
      have hh := (shredLoop_heap sf cm.pathIds w).1
      rw [scrubLoop_zeroed scf cm.keyBlobs _ a ha hscf, hh]
  · rw [if_neg hwf, if_neg hwf]
    refine ⟨by simp [scrubLoop_trace], by simp [scrubLoop_clip], ?_⟩
    intro a ha hscf
    exact scrubLoop_zeroed scf cm.keyBlobs w a ha hscf

/-- Witness for C9 with one path, two blobs, and the first scrub
failing. -/
theorem wipe_substep_failures_swallowed_witness :
    ((wipeBody true (fun _ => true) (fun a => a = 4) ⟨[7], [4, 5], false⟩
        ⟨⟨fun _ => [1, 2], 9⟩, 0, []⟩).2 =
      (if true then [7].map WStep.shredP else []) ++
        [4, 5].map WStep.scrub ++ [WStep.clip]) ∧
    (wipeBody true (fun _ => true) (fun a => a = 4) ⟨[7], [4, 5], false⟩
        ⟨⟨fun _ => [1, 2], 9⟩, 0, []⟩).1.clipCleared = 0 + 1 ∧
    (∀ a ∈ (⟨[7], [4, 5], false⟩ : CM).keyBlobs,
      (fun a => decide (a = 4)) a = false →
      (wipeBody true (fun _ => true) (fun a => a = 4) ⟨[7], [4, 5], false⟩
          ⟨⟨fun _ => [1, 2], 9⟩, 0, []⟩).1.heap.mem a =
        List.replicate (((⟨⟨fun _ => [1, 2], 9⟩, 0, []⟩ :
          World).heap.mem a).length) 0) :=
  wipe_substep_failures_swallowed true (fun _ => true) (fun a => a = 4)
    ⟨[7], [4, 5], false⟩ ⟨⟨fun _ => [1, 2], 9⟩, 0, []⟩

/-- C10.  `add_secret` stores a fresh copy: registering any buffers
never mutates any previously allocated buffer (in particular the
caller's), and `wipe()` zero-fills only the registry's internal copies
— after the wipe, every address allocated before registration still
holds its original bytes, while every registered copy is zero-filled
(no scrub failures injected). -/
theorem add_secret_fresh_copy_wipe_frame (cm : CM) (h : Heap)
    (srcs : List Nat) (wipeFiles : Bool) (sf : Nat → Bool) (c0 : Nat)
    (sh0 : List Nat) (hblobs : ∀ b ∈ cm.keyBlobs, h.next ≤ b) :
    (∀ a, a < h.next → (registerAll cm h srcs).2.mem a = h.mem a) ∧
    (∀ a, a < h.next →
      (wipeBody wipeFiles sf (fun _ => false) (registerAll cm h srcs).1
        ⟨(registerAll cm h srcs).2, c0, sh0⟩).1.heap.mem a = h.mem a) ∧
    (∀ b ∈ (registerAll cm h srcs).1.keyBlobs,
      (wipeBody wipeFiles sf (fun _ => false) (registerAll cm h srcs).1
        ⟨(registerAll cm h srcs).2, c0, sh0⟩).1.heap.mem b =
        List.replicate (((registerAll cm h srcs).2.mem b).length) 0) := by
  have hreg : ∀ a, a < h.next → (registerAll cm h srcs).2.mem a = h.mem a :=
    fun a ha => registerAll_mem_lt srcs cm h a ha
  refine ⟨hreg, ?_, ?_⟩
  · intro a ha
    have hnotin : a ∉ (registerAll cm h srcs).1.keyBlobs := by
      intro hmem
      rcases registerAll_blobs srcs cm h a hmem with hb | hb
      · exact absurd (hblobs a hb) (by omega)
      · omega
    unfold wipeBody
    have hsh : (if wipeFiles then
        shredLoop sf ⟨(registerAll cm h srcs).2, c0, sh0⟩
          (registerAll cm h srcs).1.pathIds
        else (⟨(registerAll cm h srcs).2, c0, sh0⟩, [])).1.heap =
        (registerAll cm h srcs).2 := by
      by_cases hwf : wipeFiles = true
      · rw [if_pos hwf]
        exact (shredLoop_heap sf _ _).1
      · rw [if_neg hwf]
    dsimp only
    rw [scrubLoop_frame (fun _ => false) _ _ a hnotin, hsh, hreg a ha]
  · intro b hb
    unfold wipeBody
    have hsh : (if wipeFiles then
        shredLoop sf ⟨(registerAll cm h srcs).2, c0, sh0⟩
          (registerAll cm h srcs).1.pathIds
        else (⟨(registerAll cm h srcs).2, c0, sh0⟩, [])).1.heap =
        (registerAll cm h srcs).2 := by
      by_cases hwf : wipeFiles = true
      · rw [if_pos hwf]
        exact (shredLoop_heap sf _ _).1
      · rw [if_neg hwf]
    dsimp only
    rw [scrubLoop_zeroed (fun _ => false) _ _ b hb rfl]
    rw [show (if wipeFiles then
        shredLoop sf ⟨(registerAll cm h srcs).2, c0, sh0⟩
          (registerAll cm h srcs).1.pathIds
        else (⟨(registerAll cm h srcs).2, c0, sh0⟩, [])).1.heap.mem b =
        (registerAll cm h srcs).2.mem b from congrArg (fun hh => hh.mem b) hsh]

/-- Witness for C10: one caller buffer at address 0, registered once. -/
theorem add_secret_fresh_copy_wipe_frame_witness :
    (∀ a, a < 1 →
      (registerAll ⟨[], [], false⟩ ⟨fun x => if x = 0 then [1, 2, 3] else [], 1⟩
        [0]).2.mem a =
      (⟨fun x => if x = 0 then [1, 2, 3] else [], 1⟩ : Heap).mem a) ∧
    (∀ a, a < 1 →
      (wipeBody false (fun _ => false) (fun _ => false)
        (registerAll ⟨[], [], false⟩
          ⟨fun x => if x = 0 then [1, 2, 3] else [], 1⟩ [0]).1
        ⟨(registerAll ⟨[], [], false⟩
          ⟨fun x => if x = 0 then [1, 2, 3] else [], 1⟩ [0]).2, 0,
          []⟩).1.heap.mem a =
      (⟨fun x => if x = 0 then [1, 2, 3] else [], 1⟩ : Heap).mem a) ∧
    (∀ b ∈ (registerAll ⟨[], [], false⟩
        ⟨fun x => if x = 0 then [1, 2, 3] else [], 1⟩ [0]).1.keyBlobs,
      (wipeBody false (fun _ => false) (fun _ => false)
        (registerAll ⟨[], [], false⟩
          ⟨fun x => if x = 0 then [1, 2, 3] else [], 1⟩ [0]).1
        ⟨(registerAll ⟨[], [], false⟩
          ⟨fun x => if x = 0 then [1, 2, 3] else [], 1⟩ [0]).2, 0,
          []⟩).1.heap.mem b =
      List.replicate (((registerAll ⟨[], [], false⟩
        ⟨fun x => if x = 0 then [1, 2, 3] else [], 1⟩ [0]).2.mem b).length) 0) :=
  add_secret_fresh_copy_wipe_frame ⟨[], [], false⟩
    ⟨fun x => if x = 0 then [1, 2, 3] else [], 1⟩ [0] false (fun _ => false)
    0 [] (fun b hb => absurd hb (List.not_mem_nil b))

end MCSCA
